import Mathlib

/-!
Verification of the quickgrade rubric engine (src/src/main.rs).

Floating-point values (`f32`) are modelled as rationals `ℚ`: every value the
program stores in a `Grade` is produced by `0.0`, `1.0`, `clamp`, sums of five
such values and division by `5.0`, so the rational model is faithful for the
properties stated here.  The external linting engine (harper_core) is modelled
by its output: a sequence of `LintKind` values consumed by the classification
loop of `bucket_lints`.
-/

namespace QuickGrade

/-- Rust `v.clamp(0.0, 1.0)` (main.rs line 17) on the rational model. -/
def clamp01 (v : ℚ) : ℚ := max 0 (min v 1)

/-- `struct Grade { val: Option<f32> }` (main.rs lines 10-13). -/
structure Grade where
  val : Option ℚ
deriving DecidableEq

namespace Grade

/-- `Grade::normalize` (main.rs lines 15-20): clamp a set value, keep unset. -/
def normalize (g : Grade) : Grade :=
  { val :=
      match g.val with
      | some v => some (clamp01 v)
      | none => none }

/-- `Grade::get` (main.rs lines 21-26): the set value, `0.0` when unset. -/
def get (g : Grade) : ℚ :=
  match g.val with
  | some v => v
  | _ => 0

/-- `Grade::fail` (main.rs lines 27-32): resolve to `0.0` only when unset. -/
def fail (g : Grade) : Grade :=
  { val :=
      match g.val with
      | some _ => g.val
      | none => some 0 }

/-- `Grade::pass` (main.rs lines 33-38): resolve to `1.0` only when unset. -/
def pass (g : Grade) : Grade :=
  { val :=
      match g.val with
      | some _ => g.val
      | none => some 1 }

/-- `Grade::empty` (main.rs lines 39-41). -/
def empty : Grade := { val := none }

/-- `Grade::new` (main.rs lines 42-44): stores the value as given. -/
def new (v : ℚ) : Grade := { val := some v }

end Grade

/-- One call of the resolution protocol: `fail()` or `pass()`. -/
inductive GradeOp
  | fail
  | pass
deriving DecidableEq

/-- Apply one `fail()`/`pass()` call to a Grade. -/
def applyOp (g : Grade) : GradeOp → Grade
  | GradeOp.fail => g.fail
  | GradeOp.pass => g.pass

/-- Apply a sequence of `fail()`/`pass()` calls from left to right. -/
def applyOps (g : Grade) (ops : List GradeOp) : Grade := ops.foldl applyOp g

lemma applyOp_of_some (g : Grade) (v : ℚ) (h : g.val = some v) (op : GradeOp) :
    (applyOp g op).val = some v := by
  cases op <;> simp [applyOp, Grade.fail, Grade.pass, h]

lemma applyOps_of_some (ops : List GradeOp) (g : Grade) (v : ℚ)
    (h : g.val = some v) : (applyOps g ops).val = some v := by
  induction ops generalizing g with
  | nil => simpa [applyOps] using h
  | cons op ops ih =>
      simp only [applyOps, List.foldl_cons]
      exact ih (applyOp g op) (applyOp_of_some g v h op)

/-- C1: once a `Grade` is resolved by `pass()` (resp. `fail()`) from the unset
state, any further sequence of `fail()`/`pass()` calls is a no-op: `value()`
stays `1.0` (resp. `0.0`) — first determination wins. -/
theorem grade_first_write_wins (g : Grade) (ops : List GradeOp)
    (h : g.val = none) :
    (applyOps g.pass ops).get = 1 ∧ (applyOps g.fail ops).get = 0 := by
  constructor
  · have hp : (Grade.pass g).val = some 1 := by simp [Grade.pass, h]
    have := applyOps_of_some ops g.pass 1 hp
    simp [Grade.get, this]
  · have hf : (Grade.fail g).val = some 0 := by simp [Grade.fail, h]
    have := applyOps_of_some ops g.fail 0 hf
    simp [Grade.get, this]

/-- Witness for C1 at a concrete input: start empty, `pass()` then `fail()`
(resp. `fail()` then `pass()`) leaves the value at the first determination. -/
theorem grade_first_write_wins_witness :
    (applyOps Grade.empty.pass [GradeOp.fail, GradeOp.pass]).get = 1 ∧
      (applyOps Grade.empty.fail [GradeOp.fail, GradeOp.pass]).get = 0 :=
  grade_first_write_wins Grade.empty [GradeOp.fail, GradeOp.pass] rfl

/-- C8: a Grade created by `empty()` reads `0.0` while still unset. -/
theorem grade_empty_get : Grade.empty.get = 0 := rfl

/-- C3 counterexample: `Grade::new(-1.0)` followed by `value()` returns `-1.0`,
not `clamp(-1, 0, 1) = 0` — `new` stores the raw value and `get` does not
clamp. -/
theorem grade_new_get_unclamped_cex :
    (Grade.new (-1 : ℚ)).get = -1 ∧ (Grade.new (-1 : ℚ)).get ≠ clamp01 (-1) := by
  constructor
  · rfl
  · show (-1 : ℚ) ≠ clamp01 (-1)
    simp [clamp01]

/-- C3 amended: `Grade::new(v)` then `value()` returns `v` unchanged; the clamp
into `[0.0, 1.0]` is applied by `normalize()` (as `Rubric::get` does before any
read), so `new(v)` then `normalize()` then `value()` yields `clamp(v, 0, 1)`. -/
theorem grade_new_normalize_clamps (v : ℚ) :
    (Grade.new v).get = v ∧ (Grade.new v).normalize.get = clamp01 v := by
  exact ⟨rfl, rfl⟩

/-- `enum LintCategory` (main.rs lines 46-51). -/
inductive LintCategory
  | Punctuation
  | Spelling
  | Capitalization
  | Other
deriving DecidableEq

/-- The `harper_core::linting::LintKind` values distinguished by the
classification loop of `bucket_lints` (main.rs lines 119-131): the seven kinds
named in the match plus `Untracked n`, standing for every other kind of the
external collaborator, all of which hit the wildcard arm. -/
inductive LintKind
  | BoundaryError
  | Capitalization
  | Eggcorn
  | Malapropism
  | Punctuation
  | Spelling
  | Typo
  | Untracked (n : Nat)
deriving DecidableEq

/-- The match arms of the classification loop in `bucket_lints`
(main.rs lines 121-130): the category pushed for a lint kind, `none` when the
wildcard arm hits `continue` and drops the finding. -/
def bucketKind : LintKind → Option LintCategory
  | LintKind.BoundaryError => some LintCategory.Spelling
  | LintKind.Capitalization => some LintCategory.Capitalization
  | LintKind.Eggcorn => some LintCategory.Spelling
  | LintKind.Malapropism => some LintCategory.Spelling
  | LintKind.Punctuation => some LintCategory.Punctuation
  | LintKind.Spelling => some LintCategory.Spelling
  | LintKind.Typo => some LintCategory.Spelling
  | LintKind.Untracked _ => none

/-- `bucket_lints` (main.rs lines 75-133) with the external linting engine
modelled by its output: the loop over the engine's findings pushes the mapped
category and `continue`s past untracked kinds. -/
def bucket_lints (findings : List LintKind) : List LintCategory :=
  findings.filterMap bucketKind

/-- One iteration of the `for lint in lints` loop of `punc_spell_caps`
(main.rs lines 169-176) on the state `(punc, spel, caps)`. -/
def psc_step (g : Grade × Grade × Grade) : LintCategory → Grade × Grade × Grade
  | LintCategory.Punctuation => (g.1.fail, g.2.1, g.2.2)
  | LintCategory.Spelling => (g.1, g.2.1.fail, g.2.2)
  | LintCategory.Capitalization => (g.1, g.2.1, g.2.2.fail)
  | LintCategory.Other => g

/-- `punc_spell_caps` (main.rs lines 164-181): bucket the findings, `fail()`
the matching Grade per finding, then one trailing `pass()` on each Grade and
read the three values. -/
def punc_spell_caps (findings : List LintKind) : ℚ × ℚ × ℚ :=
  let lints := bucket_lints findings
  let g := lints.foldl psc_step (Grade.empty, Grade.empty, Grade.empty)
  (g.1.pass.get, g.2.1.pass.get, g.2.2.pass.get)

/-- The effect of the loop on one Grade: `fail()` exactly on categories
satisfying `p`. -/
def failOn (p : LintCategory → Bool) (g : Grade) (l : List LintCategory) :
    Grade :=
  l.foldl (fun g lint => if p lint then g.fail else g) g

lemma failOn_cons (p : LintCategory → Bool) (x : LintCategory)
    (l : List LintCategory) (g : Grade) :
    failOn p g (x :: l) = failOn p (if p x then g.fail else g) l := rfl

lemma failOn_of_some (p : LintCategory → Bool) (l : List LintCategory)
    (g : Grade) (v : ℚ) (h : g.val = some v) : (failOn p g l).val = some v := by
  induction l generalizing g with
  | nil => simpa [failOn] using h
  | cons x l ih =>
      rw [failOn_cons]
      by_cases hx : p x
      · rw [if_pos hx]
        exact ih g.fail (by simp [Grade.fail, h])
      · rw [if_neg hx]
        exact ih g h

lemma failOn_of_none (p : LintCategory → Bool) (l : List LintCategory)
    (g : Grade) (h : g.val = none) :
    (failOn p g l).val = if l.any p then some 0 else none := by
  induction l generalizing g with
  | nil => simpa [failOn] using h
  | cons x l ih =>
      rw [failOn_cons, List.any_cons]
      by_cases hx : p x
      · rw [if_pos hx]
        have hfail : (Grade.fail g).val = some 0 := by simp [Grade.fail, h]
        simp [hx, failOn_of_some p l g.fail 0 hfail]
      · rw [if_neg hx]
        simpa [hx] using ih g h

lemma psc_foldl_eq (l : List LintCategory) (g : Grade × Grade × Grade) :
    l.foldl psc_step g =
      (failOn (fun c => c = LintCategory.Punctuation) g.1 l,
       failOn (fun c => c = LintCategory.Spelling) g.2.1 l,
       failOn (fun c => c = LintCategory.Capitalization) g.2.2 l) := by
  induction l generalizing g with
  | nil => rfl
  | cons x l ih =>
      rw [List.foldl_cons, ih, failOn_cons, failOn_cons, failOn_cons]
      cases x <;> rfl

lemma pass_get_of_failOn (p : LintCategory → Bool) (l : List LintCategory) :
    (failOn p Grade.empty l).pass.get = if l.any p then 0 else 1 := by
  have h := failOn_of_none p l Grade.empty rfl
  by_cases hl : l.any p
  · simp only [hl, if_true] at h
    simp [hl, Grade.pass, Grade.get, h]
  · simp only [hl, if_false] at h
    simp [hl, Grade.pass, Grade.get, h]

lemma any_bucket (findings : List LintKind) (c : LintCategory) :
    (((bucket_lints findings).any fun x => x = c) = true) ↔
      ∃ k ∈ findings, bucketKind k = some c := by
  simp only [bucket_lints, List.any_eq_true, List.mem_filterMap,
    decide_eq_true_eq]
  constructor
  · rintro ⟨x, ⟨k, hk, hbk⟩, hx⟩
    exact ⟨k, hk, by rw [hbk, hx]⟩
  · rintro ⟨k, hk, hbk⟩
    exact ⟨c, ⟨k, hk, hbk⟩, rfl⟩

/-- C2: for every finding sequence, the fail/pass protocol of
`punc_spell_caps` resolves each of the punctuation, spelling and
capitalization Grades to `0.0` exactly when some finding is classified to that
category, and to `1.0` when the sequence is empty or holds only findings of
other categories. -/
theorem punc_spell_caps_resolves (findings : List LintKind) :
    ((punc_spell_caps findings).1 =
        if ∃ k ∈ findings, bucketKind k = some LintCategory.Punctuation
        then 0 else 1) ∧
      ((punc_spell_caps findings).2.1 =
        if ∃ k ∈ findings, bucketKind k = some LintCategory.Spelling
        then 0 else 1) ∧
      ((punc_spell_caps findings).2.2 =
        if ∃ k ∈ findings, bucketKind k = some LintCategory.Capitalization
        then 0 else 1) := by
  have hfold := psc_foldl_eq (bucket_lints findings)
    (Grade.empty, Grade.empty, Grade.empty)
  have hval : punc_spell_caps findings =
      ((if (bucket_lints findings).any (fun c => c = LintCategory.Punctuation)
          then 0 else 1),
       (if (bucket_lints findings).any (fun c => c = LintCategory.Spelling)
          then 0 else 1),
       (if (bucket_lints findings).any (fun c => c = LintCategory.Capitalization)
          then 0 else 1)) := by
    simp only [punc_spell_caps, hfold, pass_get_of_failOn]
  refine ⟨?_, ?_, ?_⟩
  · rw [hval]
    by_cases h : ∃ k ∈ findings, bucketKind k = some LintCategory.Punctuation
    · rw [if_pos h]
      simp [(any_bucket findings _).mpr h]
    · rw [if_neg h]
      have hb := (any_bucket findings LintCategory.Punctuation).not.mpr h
      simp only [Bool.not_eq_true] at hb
      simp [hb]
  · rw [hval]
    by_cases h : ∃ k ∈ findings, bucketKind k = some LintCategory.Spelling
    · rw [if_pos h]
      simp [(any_bucket findings _).mpr h]
    · rw [if_neg h]
      have hb := (any_bucket findings LintCategory.Spelling).not.mpr h
      simp only [Bool.not_eq_true] at hb
      simp [hb]
  · rw [hval]
    by_cases h : ∃ k ∈ findings, bucketKind k = some LintCategory.Capitalization
    · rw [if_pos h]
      simp [(any_bucket findings _).mpr h]
    · rw [if_neg h]
      have hb := (any_bucket findings LintCategory.Capitalization).not.mpr h
      simp only [Bool.not_eq_true] at hb
      simp [hb]

/-- C6: the classification of `bucket_lints` maps each finding kind to at most
one category, by the fixed mapping: boundary error, eggcorn, malapropism,
spelling and typo to Spelling; punctuation to Punctuation; capitalization to
Capitalization; every other kind is dropped and no kind maps to `Other`. -/
theorem bucketKind_fixed_mapping (k : LintKind) :
    (bucketKind k = some LintCategory.Spelling ↔
        k ∈ [LintKind.BoundaryError, LintKind.Eggcorn, LintKind.Malapropism,
          LintKind.Spelling, LintKind.Typo]) ∧
      (bucketKind k = some LintCategory.Punctuation ↔
        k = LintKind.Punctuation) ∧
      (bucketKind k = some LintCategory.Capitalization ↔
        k = LintKind.Capitalization) ∧
      (bucketKind k = some LintCategory.Other ↔ False) ∧
      (bucketKind k = none ↔ ∃ n, k = LintKind.Untracked n) := by
  cases k <;> simp [bucketKind]

/-- Match a regex pattern (literal characters, with '.' matching any single
character other than a newline) against a prefix of the text.  This is the
semantics of the alternation branches of the regex in `contains_link`
(main.rs line 183), in which the dots are unescaped metacharacters. -/
def matchHere : List Char → List Char → Bool
  | [], _ => true
  | _ :: _, [] => false
  | p :: ps, c :: cs =>
      ((p == '.' && !(c == '\n')) || p == c) && matchHere ps cs

/-- Unanchored regex search: the pattern matches starting at some position. -/
def regexFind (pat : List Char) : List Char → Bool
  | [] => matchHere pat []
  | c :: cs => matchHere pat (c :: cs) || regexFind pat cs

/-- The three alternation branches of the regex of `contains_link`, each
followed by the escaped slash: `youtube.com/`, `youtu.be/`, `tiktok.com/`
(with each '.' an unescaped any-character metacharacter). -/
def linkPats : List (List Char) :=
  ["youtube.com/".toList, "youtu.be/".toList, "tiktok.com/".toList]

/-- `contains_link` (main.rs lines 182-185): whether the regex
`((youtube.com)|(youtu.be)|(tiktok.com))\/` matches the text. -/
def contains_link (contents : List Char) : Bool :=
  linkPats.any (fun p => regexFind p contents)

/-- Literal prefix match: every pattern character, '.' included, must equal
the text character. -/
def litHere : List Char → List Char → Bool
  | [], _ => true
  | _ :: _, [] => false
  | p :: ps, c :: cs => (p == c) && litHere ps cs

/-- Literal substring search. -/
def litFind (pat : List Char) : List Char → Bool
  | [] => litHere pat []
  | c :: cs => litHere pat (c :: cs) || litFind pat cs

/-- Modelled from the spec's words for comparison: the text contains one of
the literal substrings `youtube.com/`, `youtu.be/`, `tiktok.com/`. -/
def containsLinkSpec (contents : List Char) : Bool :=
  linkPats.any (fun p => litFind p contents)

/-- The link Grade assignment of `Rubric::from_string` (main.rs lines
189-193). -/
def linkGrade (contents : List Char) : Grade :=
  if contains_link contents then Grade.new 1 else Grade.new 0

lemma matchHere_of_litHere (p : List Char) (c : List Char)
    (h : litHere p c = true) : matchHere p c = true := by
  induction p generalizing c with
  | nil => rfl
  | cons x xs ih =>
      cases c with
      | nil => exact absurd h (by simp [litHere])
      | cons y ys =>
          simp only [litHere, Bool.and_eq_true] at h
          simp only [matchHere, Bool.and_eq_true, Bool.or_eq_true]
          exact ⟨Or.inr h.1, ih ys h.2⟩

lemma regexFind_of_litFind (p : List Char) (c : List Char)
    (h : litFind p c = true) : regexFind p c = true := by
  induction c with
  | nil => exact matchHere_of_litHere p [] h
  | cons y ys ih =>
      simp only [litFind, Bool.or_eq_true] at h
      simp only [regexFind, Bool.or_eq_true]
      cases h with
      | inl h => exact Or.inl (matchHere_of_litHere p (y :: ys) h)
      | inr h => exact Or.inr (ih h)

/-- C4 counterexample: the text `youtubeXcom/` contains none of the literal
patterns `youtube.com/`, `youtu.be/`, `tiktok.com/`, yet `contains_link`
accepts it (the regex dot is unescaped and matches the `X`), so the link Grade
resolves to `1.0` on a text with no recognized video-hosting URL. -/
theorem contains_link_unescaped_dot_cex :
    containsLinkSpec "youtubeXcom/".toList = false ∧
      contains_link "youtubeXcom/".toList = true ∧
      (linkGrade "youtubeXcom/".toList).get = 1 := by
  refine ⟨by decide, by decide, ?_⟩
  have h : contains_link "youtubeXcom/".toList = true := by decide
  simp only [linkGrade]
  rw [if_pos h]
  rfl

/-- C4 amended: the link Grade is resolved to `1.0` exactly when the regex of
`contains_link` matches — one of the patterns `youtube.com/`, `youtu.be/`,
`tiktok.com/` with each `.` an unescaped single-character wildcard — and to
`0.0` otherwise; every text containing one of the literal patterns is
accepted, and `https://youtube.com/watch?v=x` scores `1.0`. -/
theorem link_grade_characterization (contents : List Char) :
    ((linkGrade contents).get = if contains_link contents then 1 else 0) ∧
      (containsLinkSpec contents = true → contains_link contents = true) ∧
      (linkGrade "https://youtube.com/watch?v=x".toList).get = 1 := by
  refine ⟨?_, ?_, ?_⟩
  · by_cases h : contains_link contents <;>
      simp [linkGrade, h, Grade.new, Grade.get]
  · intro h
    simp only [containsLinkSpec, List.any_eq_true] at h
    obtain ⟨p, hp, hfind⟩ := h
    simp only [contains_link, List.any_eq_true]
    exact ⟨p, hp, regexFind_of_litFind p contents hfind⟩
  · have h : contains_link "https://youtube.com/watch?v=x".toList = true := by
      decide
    simp only [linkGrade]
    rw [if_pos h]
    rfl

/-- Witness for C4's amended theorem at a concrete input: a text containing
the literal pattern `youtu.be/` is accepted by `contains_link`. -/
theorem link_grade_characterization_witness :
    contains_link "check my video at youtu.be/abc".toList = true :=
  (link_grade_characterization "check my video at youtu.be/abc".toList).2.1
    (by decide)

/-- Model of Rust `str::trim` (main.rs line 200): drop whitespace from both
ends. -/
def trim (s : List Char) : List Char :=
  ((s.dropWhile Char.isWhitespace).reverse.dropWhile Char.isWhitespace).reverse

/-- Model of Rust `str::to_lowercase` (main.rs line 201). -/
def toLowercase (s : List Char) : List Char := s.map Char.toLower

/-- The questions-answered resolution of `Rubric::from_string` (main.rs lines
196-206): trim and lowercase the human response, then `pass()` when
`chars().nth(0).unwrap_or('y')` is `'y'` and `fail()` otherwise, on the
initially empty `ques` Grade. -/
def quesGrade (input : List Char) : Grade :=
  if (toLowercase (trim input)).headD 'y' == 'y' then Grade.empty.pass
  else Grade.empty.fail

/-- C5: the questions-answered Grade resolves to passing exactly when the
response, trimmed and lowercased, is empty or begins with `'y'`, and to
failing when its first normalized character is not `'y'`; every response
resolves the Grade — none is rejected. -/
theorem ques_grade_spec (input : List Char) :
    ((quesGrade input).get =
        if toLowercase (trim input) = [] ∨
            (toLowercase (trim input)).head? = some 'y'
          then 1 else 0) ∧
      (quesGrade input).val.isSome = true := by
  constructor
  · cases h : toLowercase (trim input) with
    | nil => simp [quesGrade, h, Grade.empty, Grade.pass, Grade.get]
    | cons c cs =>
        by_cases hc : c = 'y'
        · simp [quesGrade, h, hc, Grade.empty, Grade.pass, Grade.get]
        · simp [quesGrade, h, hc, Grade.empty, Grade.fail, Grade.get]
  · simp only [quesGrade]
    split <;> rfl

/-- `struct Rubric` (main.rs lines 134-140). -/
structure Rubric where
  link : Grade
  caps : Grade
  punc : Grade
  spel : Grade
  ques : Grade

/-- `Rubric::normalize` (main.rs lines 142-148): normalize all five Grades. -/
def Rubric.normalize (r : Rubric) : Rubric :=
  { link := r.link.normalize
    caps := r.caps.normalize
    punc := r.punc.normalize
    spel := r.spel.normalize
    ques := r.ques.normalize }

/-- `Rubric::get` (main.rs lines 149-153): normalize, then the sum of the five
values divided by `5.0`. -/
def Rubric.get (r : Rubric) : ℚ :=
  (r.normalize.link.get + r.normalize.caps.get + r.normalize.punc.get +
    r.normalize.spel.get + r.normalize.ques.get) / 5

/-- Rust `f32::round` (main.rs line 237): nearest integer, ties away from
zero. -/
def roundAway (v : ℚ) : ℤ := if 0 ≤ v then ⌊v + 1 / 2⌋ else ⌈v - 1 / 2⌉

/-- The final-score line of `Rubric::output` (main.rs line 237):
`(score * 100.0).round()` with `score = self.get()`. -/
def Rubric.finalScore (r : Rubric) : ℤ := roundAway (r.get * 100)

/-- Modelled from the spec: a Grade's resolved value clamped into
`[0.0, 1.0]`, `0.0` when unset. -/
def gradeClampedValue (g : Grade) : ℚ :=
  match g.val with
  | some v => clamp01 v
  | none => 0

/-- Modelled from the spec: the arithmetic mean of the five Grades' clamped
values. -/
def specMean (r : Rubric) : ℚ :=
  (gradeClampedValue r.link + gradeClampedValue r.caps +
    gradeClampedValue r.punc + gradeClampedValue r.spel +
    gradeClampedValue r.ques) / 5

lemma normalize_get (g : Grade) : g.normalize.get = gradeClampedValue g := by
  cases h : g.val <;> simp [Grade.normalize, Grade.get, gradeClampedValue, h]

lemma rubric_get_eq_specMean (r : Rubric) : r.get = specMean r := by
  simp [Rubric.get, Rubric.normalize, specMean, normalize_get]

lemma gradeClampedValue_bounds (g : Grade) :
    0 ≤ gradeClampedValue g ∧ gradeClampedValue g ≤ 1 := by
  cases h : g.val with
  | none => simp [gradeClampedValue, h]
  | some v =>
      simp only [gradeClampedValue, h, clamp01]
      exact ⟨le_max_left 0 _, max_le (by norm_num) (min_le_right v 1)⟩

/-- C7: the overall score of a Rubric is the arithmetic mean of the five
Grades' clamped resolved values, the reported final score is that mean scaled
to 100 and rounded half away from zero, and the Rubric with Grades
`[1, 1, 1, 1, 0]` reports a final score of `80`. -/
theorem rubric_mean_and_rounding (r : Rubric) :
    r.get = specMean r ∧
      r.finalScore = roundAway (specMean r * 100) ∧
      (Rubric.mk (Grade.new 1) (Grade.new 1) (Grade.new 1) (Grade.new 1)
          (Grade.new 0)).finalScore = 80 := by
  refine ⟨rubric_get_eq_specMean r, ?_, ?_⟩
  · rw [Rubric.finalScore, rubric_get_eq_specMean]
  · have hget : (Rubric.mk (Grade.new 1) (Grade.new 1) (Grade.new 1)
        (Grade.new 1) (Grade.new 0)).get = 4 / 5 := by
      norm_num [Rubric.get, Rubric.normalize, Grade.normalize, Grade.get,
        Grade.new, clamp01]
    rw [Rubric.finalScore, hget]
    norm_num [roundAway]

/-- C10: for every Rubric state, including unset Grades and Grades set
directly outside `[0.0, 1.0]`, `Rubric::get` returns a value in `[0.0, 1.0]`:
every set Grade is clamped before averaging and an unset Grade contributes
`0.0`. -/
theorem rubric_get_in_unit_interval (r : Rubric) :
    0 ≤ r.get ∧ r.get ≤ 1 := by
  rw [rubric_get_eq_specMean]
  obtain ⟨h1, h2⟩ := gradeClampedValue_bounds r.link
  obtain ⟨h3, h4⟩ := gradeClampedValue_bounds r.caps
  obtain ⟨h5, h6⟩ := gradeClampedValue_bounds r.punc
  obtain ⟨h7, h8⟩ := gradeClampedValue_bounds r.spel
  obtain ⟨h9, h10⟩ := gradeClampedValue_bounds r.ques
  simp only [specMean]
  constructor
  · apply div_nonneg _ (by norm_num)
    linarith
  · rw [div_le_one (by norm_num : (0 : ℚ) < 5)]
    linarith

end QuickGrade
